import Mathlib

/-!
Shallow embedding of `specialist.py` (a visualizer for CPython 3.11's
specializing adaptive interpreter) and verification of its specification.

Conventions of the embedding:
* Python arbitrary-precision `int` is `Int` (`Nat` for coordinates, which are
  line/column numbers).
* A source coordinate is a `(line, column)` pair; Python compares such tuples
  lexicographically, modelled by `posLe` / `posLt`.
* Python strings are `String` (lists of characters where we walk them).
* The `events` `defaultdict` in `parse` is an association list with a
  `Stats()`-default update operation (`addDelta` / `subDelta`); `sorted` is
  modelled by `List.insertionSort` on the key order (keys are distinct, so any
  stable sort by the lexicographic key order yields the same list as Python's
  `sorted`).
* Fallible operations (`next` on an exhausted generator, a failing `assert`,
  `Path.samefile` on a missing file) are modelled with `Option`.
-/

/-- A `(line, column)` source coordinate, as used by `dis` position records. -/
abbrev Pos := Nat × Nat

/-- Lexicographic `≤` on coordinates: Python's tuple comparison. -/
def posLe (a b : Pos) : Bool :=
  decide (a.1 < b.1 ∨ (a.1 = b.1 ∧ a.2 ≤ b.2))

/-- Lexicographic `<` on coordinates: Python's tuple comparison. -/
def posLt (a b : Pos) : Bool :=
  decide (a.1 < b.1 ∨ (a.1 = b.1 ∧ a.2 < b.2))

/-- `FIRST_POSTION = (1, 0)` (sic) from the source. -/
def FIRST_POSTION : Pos := (1, 0)

/-- `LAST_POSITION = (sys.maxsize, 0)` from the source; `sys.maxsize = 2^63 - 1`
on a 64-bit build. -/
def LAST_POSITION : Pos := (9223372036854775807, 0)

theorem posLe_iff {a b : Pos} :
    posLe a b = true ↔ a.1 < b.1 ∨ (a.1 = b.1 ∧ a.2 ≤ b.2) := by
  simp [posLe]

theorem posLt_iff {a b : Pos} :
    posLt a b = true ↔ a.1 < b.1 ∨ (a.1 = b.1 ∧ a.2 < b.2) := by
  simp [posLt]

theorem posLe_refl (a : Pos) : posLe a a = true := by
  simp [posLe_iff]

theorem posLe_trans {a b c : Pos} (h1 : posLe a b = true) (h2 : posLe b c = true) :
    posLe a c = true := by
  rw [posLe_iff] at h1 h2 ⊢; omega

theorem posLe_antisymm {a b : Pos} (h1 : posLe a b = true) (h2 : posLe b a = true) :
    a = b := by
  rw [posLe_iff] at h1 h2
  have : a.1 = b.1 ∧ a.2 = b.2 := by omega
  exact Prod.ext this.1 this.2

theorem posLe_total (a b : Pos) : posLe a b = true ∨ posLe b a = true := by
  rw [posLe_iff, posLe_iff]; omega

theorem posLt_iff_le_ne {a b : Pos} : posLt a b = true ↔ posLe a b = true ∧ a ≠ b := by
  rw [posLt_iff, posLe_iff]
  constructor
  · intro h
    refine ⟨by omega, ?_⟩
    intro he; subst he; omega
  · rintro ⟨h, hne⟩
    rcases h with h | ⟨h1, h2⟩
    · omega
    · rcases Nat.lt_or_ge a.2 b.2 with h3 | h3
      · omega
      · exact absurd (Prod.ext h1 (by omega)) hne

theorem not_posLe_iff {a b : Pos} : ¬ posLe a b = true ↔ posLt b a = true := by
  rw [posLe_iff, posLt_iff]; omega

theorem posLe_of_lt {a b : Pos} (h : posLt a b = true) : posLe a b = true := by
  rw [posLt_iff] at h; rw [posLe_iff]; omega

theorem posLt_of_le_of_lt {a b c : Pos} (h1 : posLe a b = true)
    (h2 : posLt b c = true) : posLt a c = true := by
  rw [posLe_iff] at h1; rw [posLt_iff] at h2 ⊢; omega

theorem posLt_of_lt_of_le {a b c : Pos} (h1 : posLt a b = true)
    (h2 : posLe b c = true) : posLt a c = true := by
  rw [posLt_iff] at h1 ⊢; rw [posLe_iff] at h2; omega

/-- The `Stats` dataclass: three (signed, during the sweep) counters. -/
structure Stats where
  specialized : Int
  adaptive : Int
  unquickened : Int
deriving DecidableEq, Repr

/-- `Stats.__add__`: componentwise addition. -/
instance : Add Stats :=
  ⟨fun a b => ⟨a.specialized + b.specialized, a.adaptive + b.adaptive,
    a.unquickened + b.unquickened⟩⟩

/-- `Stats.__sub__`: componentwise subtraction. -/
instance : Sub Stats :=
  ⟨fun a b => ⟨a.specialized - b.specialized, a.adaptive - b.adaptive,
    a.unquickened - b.unquickened⟩⟩

/-- `Stats()`: the all-zero default value of the dataclass. -/
def Stats.zero : Stats := ⟨0, 0, 0⟩

instance : Zero Stats := ⟨Stats.zero⟩

theorem Stats.add_def (a b : Stats) :
    a + b = ⟨a.specialized + b.specialized, a.adaptive + b.adaptive,
      a.unquickened + b.unquickened⟩ := rfl

theorem Stats.sub_def (a b : Stats) :
    a - b = ⟨a.specialized - b.specialized, a.adaptive - b.adaptive,
      a.unquickened - b.unquickened⟩ := rfl

theorem Stats.zero_def : (0 : Stats) = ⟨0, 0, 0⟩ := rfl

instance : AddCommMonoid Stats where
  add_assoc a b c := by
    cases a; cases b; cases c
    simp only [Stats.add_def, Stats.mk.injEq]
    refine ⟨?_, ?_, ?_⟩ <;> ring
  zero_add a := by
    cases a
    simp only [Stats.zero_def, Stats.add_def, Stats.mk.injEq]
    refine ⟨?_, ?_, ?_⟩ <;> ring
  add_zero a := by
    cases a
    simp only [Stats.zero_def, Stats.add_def, Stats.mk.injEq]
    refine ⟨?_, ?_, ?_⟩ <;> ring
  add_comm a b := by
    cases a; cases b
    simp only [Stats.add_def, Stats.mk.injEq]
    refine ⟨?_, ?_, ?_⟩ <;> ring
  nsmul := nsmulRec

theorem Stats.add_sub_cancel_right (a b : Stats) : a + b - b = a := by
  cases a; cases b
  simp only [Stats.add_def, Stats.sub_def, Stats.mk.injEq]
  refine ⟨?_, ?_, ?_⟩ <;> ring

/-- The `SourceChunk` dataclass: a half-open coordinate interval with its
aggregate `Stats`. -/
structure SourceChunk where
  start : Pos
  stop : Pos
  stats : Stats
deriving DecidableEq, Repr

/-- One scored observation fed to the sweep: an instruction's source span
`[start, stop)` together with its one-hot score. This is the `(position,
stats)` data that the loop body of `parse` registers into `events`. -/
structure Observation where
  start : Pos
  stop : Pos
  stats : Stats
deriving DecidableEq, Repr

/-- `events[p] += s` on the `defaultdict(Stats)`: update the entry at key `p`
(defaulting to `Stats()` when absent; a new key is appended, matching dict
insertion order, though the subsequent sort makes the order irrelevant). -/
def addDelta : List (Pos × Stats) → Pos → Stats → List (Pos × Stats)
  | [], p, s => [(p, Stats.zero + s)]
  | (q, t) :: rest, p, s =>
    if q = p then (q, t + s) :: rest else (q, t) :: addDelta rest p s

/-- `events[p] -= s` on the `defaultdict(Stats)`. -/
def subDelta : List (Pos × Stats) → Pos → Stats → List (Pos × Stats)
  | [], p, s => [(p, Stats.zero - s)]
  | (q, t) :: rest, p, s =>
    if q = p then (q, t - s) :: rest else (q, t) :: subDelta rest p s

/-- The two loop statements `events[lineno, col_offset] += stats;
events[end_lineno, end_col_offset] -= stats` for one scored observation. -/
def registerObs (events : List (Pos × Stats)) (o : Observation) :
    List (Pos × Stats) :=
  subDelta (addDelta events o.start o.stats) o.stop o.stats

/-- The initial `events` mapping: the two sentinel zero entries
`events[FIRST_POSTION] = Stats(); events[LAST_POSITION] = Stats()`. -/
def initialEvents : List (Pos × Stats) :=
  [(FIRST_POSTION, Stats.zero), (LAST_POSITION, Stats.zero)]

/-- The fully populated `events` mapping after the instruction loop, for a
given list of scored observations. -/
def buildEvents (obs : List Observation) : List (Pos × Stats) :=
  obs.foldl registerObs initialEvents

/-- Key order used by `sorted(events.items())`: compare items by their
coordinate key (keys are distinct, so the value component never decides). -/
def eventLe (a b : Pos × Stats) : Prop := posLe a.1 b.1 = true

instance : DecidableRel eventLe := fun a b =>
  inferInstanceAs (Decidable (posLe a.1 b.1 = true))

instance : IsTotal (Pos × Stats) eventLe :=
  ⟨fun a b => posLe_total a.1 b.1⟩

instance : IsTrans (Pos × Stats) eventLe :=
  ⟨fun _ _ _ h1 h2 => posLe_trans h1 h2⟩

/-- `sorted(events.items())`. -/
def sortEvents (l : List (Pos × Stats)) : List (Pos × Stats) :=
  List.insertionSort eventLe l

/-- The emission loop of `parse`: `for (start, event), (stop, _) in
itertools.pairwise(sorted_items): stats += event; yield SourceChunk(start,
stop, stats)`, with `stats` the running accumulator. -/
def sweep (stats : Stats) : List (Pos × Stats) → List SourceChunk
  | [] => []
  | [_] => []
  | (start, event) :: (stop, e2) :: rest =>
    SourceChunk.mk start stop (stats + event) ::
      sweep (stats + event) ((stop, e2) :: rest)

/-- `parse`, at the level of its scored observations: register every
observation's delta pair into the sentinel-initialized `events` map, sort the
items by coordinate, and emit the chunks of the running-sum sweep (the
accumulator starts at `stats = Stats()`). -/
def parse (obs : List Observation) : List SourceChunk :=
  sweep Stats.zero (sortEvents (buildEvents obs))

/-- One decoded instruction, as `parse` sees it: `dis.Instruction` fields used
by the classifier, paired with the (bug-fixed) position record
`fixed_positions[instruction.offset // 2] = (lineno, end_lineno, col_offset,
end_col_offset)`, any component of which may be `None`. -/
structure Instruction where
  opname : String
  is_jump_target : Bool
  lineno : Option Nat
  end_lineno : Option Nat
  col_offset : Option Nat
  end_col_offset : Option Nat
deriving DecidableEq, Repr

/-- `"__" in instruction.opname`: substring search for a double underscore on
the character list. -/
def containsDoubleUnderscore : List Char → Bool
  | '_' :: '_' :: _ => true
  | _ :: rest => containsDoubleUnderscore rest
  | [] => false

/-- `is_superinstruction`: check if an instruction is a superinstruction. -/
def is_superinstruction (instruction : Instruction) : Bool :=
  containsDoubleUnderscore instruction.opname.data

/-- `instruction.opname.endswith("_ADAPTIVE")`. -/
def endsWithAdaptive (opname : String) : Bool :=
  ("_ADAPTIVE".data).isSuffixOf opname.data

/-- `score_instruction`: score an instruction's importance. The fixed family
`SPECIALIZED_INSTRUCTIONS` comes from the host interpreter's `opcode` module
(external to this program), so it is a parameter of the embedding. -/
def score_instruction (SPECIALIZED_INSTRUCTIONS : List String)
    (instruction : Instruction) (previous : Option Instruction) : Stats :=
  if SPECIALIZED_INSTRUCTIONS.contains instruction.opname then
    if endsWithAdaptive instruction.opname then Stats.mk 0 1 0
    else Stats.mk 1 0 0
  else
    match previous with
    | some prev =>
      if is_superinstruction prev && !instruction.is_jump_target then
        Stats.mk 1 0 0
      else Stats.mk 0 0 1
    | none => Stats.mk 0 0 1

/-- The classifier as the spec's section 4.3 states it, rule by rule:
(1) family membership decides adaptive-form vs specialized form; (2) otherwise
a fused-superinstruction predecessor with a non-jump-target instruction scores
specialized; (3) otherwise generic. (Spec field names: specialized = the
`specialized` counter, adapting = `adaptive`, generic = `unquickened`.) -/
def classifierSpec (family : List String) (instruction : Instruction)
    (previous : Option Instruction) : Stats :=
  if family.contains instruction.opname then
    if endsWithAdaptive instruction.opname then
      { specialized := 0, adaptive := 1, unquickened := 0 }
    else
      { specialized := 1, adaptive := 0, unquickened := 0 }
  else if (match previous with
           | some prev => is_superinstruction prev
           | none => false) && !instruction.is_jump_target then
    { specialized := 1, adaptive := 0, unquickened := 0 }
  else
    { specialized := 0, adaptive := 0, unquickened := 1 }

/-- A `Stats` value is one-hot: exactly one of the three counters is 1 and the
other two are 0. -/
def Stats.oneHot (s : Stats) : Prop :=
  s = ⟨1, 0, 0⟩ ∨ s = ⟨0, 1, 0⟩ ∨ s = ⟨0, 0, 1⟩

/-- The scoring loop body of `parse`, turned into the list of observations it
registers: an instruction with any `None` span coordinate is skipped (no
observation) but still becomes `previous`; a fully positioned instruction is
scored against the current `previous` and contributes the observation
`((lineno, col_offset), (end_lineno, end_col_offset), stats)`, and then
becomes `previous` itself. -/
def scoreObservations (SPECIALIZED_INSTRUCTIONS : List String) :
    Option Instruction → List Instruction → List Observation
  | _, [] => []
  | previous, instruction :: rest =>
    match instruction.lineno, instruction.end_lineno,
        instruction.col_offset, instruction.end_col_offset with
    | some lineno, some end_lineno, some col_offset, some end_col_offset =>
      Observation.mk (lineno, col_offset) (end_lineno, end_col_offset)
          (score_instruction SPECIALIZED_INSTRUCTIONS instruction previous) ::
        scoreObservations SPECIALIZED_INSTRUCTIONS (some instruction) rest
    | _, _, _, _ =>
      scoreObservations SPECIALIZED_INSTRUCTIONS (some instruction) rest

/-- A captured code object, as `get_code_for_path` inspects it: its
`co_filename` string plus a capture sequence number distinguishing the
successive captures (the Python object identity / insertion order). -/
structure Code where
  co_filename : String
  captureIndex : Nat
deriving DecidableEq, Repr

/-- `get_code_for_path`: iterate over the registry (`for code in CODE` — the
iteration order of the Python `set` is arbitrary, so it is a parameter of the
embedding, given as the list `registry`); `path.samefile(code.co_filename)`
compares the file identities resolved by the filesystem `fs` (a path maps to
`none` when the file does not exist) and raises `FileNotFoundError` — caught
and treated as a non-match — when either side does not exist. -/
def get_code_for_path (fs : String → Option Nat) (path : String) :
    List Code → Option Code
  | [] => none
  | code :: rest =>
    match fs path, fs code.co_filename with
    | some a, some b =>
      if a = b then some code else get_code_for_path fs path rest
    | _, _ => get_code_for_path fs path rest

/-- The match predicate of `get_code_for_path`, for the `find?` formulation:
the path and the code's recorded file both exist and have the same identity. -/
def samefileOk (fs : String → Option Nat) (path : String) (code : Code) : Bool :=
  match fs path, fs code.co_filename with
  | some a, some b => decide (a = b)
  | _, _ => false

/-- `HTMLWriter` configuration: the two keyword arguments of its constructor. -/
structure HTMLWriter where
  blue : Bool
  dark : Bool
deriving DecidableEq, Repr

/-- `HTMLWriter._color`, up to the exact `(hue, lightness, saturation)` triple
handed to `colorsys.hls_to_rgb`: `none` is the neutral early return
`"#ffffff"`; otherwise the triple is computed over `ℚ` (the Python float
computation evaluates these same rational expressions in binary floating
point). -/
def HTMLWriter.color (writer : HTMLWriter) (stats : Stats) :
    Option (ℚ × ℚ × ℚ) :=
  let quickened : Int := stats.specialized + stats.adaptive
  if quickened = 0 then none
  else
    let hue : ℚ := 1 / 3 * (stats.specialized : ℚ) / (quickened : ℚ)
    let hue : ℚ := if writer.blue then -hue else hue
    let lightness : ℚ :=
      max (1 / 2) ((stats.unquickened : ℚ) / ((quickened : ℚ) + (stats.unquickened : ℚ)))
    some (hue, lightness, 1)

/-- The renderer's color rule as the spec's section 4.5 states it:
`quickened = specialized + adapting`; zero quickened is neutral; otherwise
`hue = (1/3) * specialized / quickened`, negated in the alternate-axis mode,
`lightness = max(0.5, generic / (quickened + generic))`, `saturation = 1`. -/
def rendererColorSpec (alternateAxis : Bool) (stats : Stats) :
    Option (ℚ × ℚ × ℚ) :=
  let quickened : Int := stats.specialized + stats.adaptive
  if quickened = 0 then none
  else
    some (
      (if alternateAxis then
        -(1 / 3 * (stats.specialized : ℚ) / (quickened : ℚ))
      else 1 / 3 * (stats.specialized : ℚ) / (quickened : ℚ)),
      max (1 / 2) ((stats.unquickened : ℚ) / ((quickened : ℚ) + (stats.unquickened : ℚ))),
      1)

/-- `HTMLWriter.add`'s choice of CSS attribute for a highlighted run:
`"color" if self._dark else "background-color"`. -/
def HTMLWriter.styleAttribute (writer : HTMLWriter) : String :=
  if writer.dark then "color" else "background-color"

/-- `HTMLWriter.__init__`'s page colors: `("black", "white") if dark else
("white", "black")` as `(background_color, color)`. -/
def HTMLWriter.pageColors (writer : HTMLWriter) : String × String :=
  if writer.dark then ("black", "white") else ("white", "black")

/-- `for col_offset, character in enumerate(line)`: one line's characters with
their `(lineno, col_offset)` coordinates. -/
def enumLine (lineno : Nat) : Nat → List Char → List (Pos × Char)
  | _, [] => []
  | col, character :: rest =>
    ((lineno, col), character) :: enumLine lineno (col + 1) rest

/-- `for lineno, line in enumerate(file, 1)`: the whole source, line by line
(each line keeps its trailing newline, exactly as Python file iteration yields
it), flattened to the coordinate-tagged character stream the `view` loop
walks. -/
def enumerateSource (lineno : Nat) : List (List Char) → List (Pos × Char)
  | [] => []
  | line :: rest => enumLine lineno 0 line ++ enumerateSource (lineno + 1) rest

/-- The character walk of `view`: thread the pending `group`, the current
`chunk` and the not-yet-consumed chunks of the parser through the
coordinate-tagged character stream. Hitting `chunk.stop` flushes the group as
one run (the `writer.add` call), pulls the next chunk (`none` models the
`StopIteration` of an exhausted parser) and checks the `assert chunk.start ==
(lineno, col_offset)` (`none` models an assertion failure); every character is
appended to the current group. The trailing `writer.add` flushes the final
group. Runs are kept as their unescaped text (`writer.add` escapes them only
for markup). -/
def viewWalk : List Char → SourceChunk → List SourceChunk →
    List (Pos × Char) → Option (List (List Char × Stats))
  | group, chunk, _, [] => some [(group, chunk.stats)]
  | group, chunk, chunks, (p, character) :: rest =>
    if chunk.stop = p then
      match chunks with
      | [] => none
      | next :: chunks2 =>
        if next.start = p then
          Option.map (fun runs => (group, chunk.stats) :: runs)
            (viewWalk [character] next chunks2 rest)
        else none
    else viewWalk (group ++ [character]) chunk chunks rest

/-- `view`, up to its writer calls: the list of `(unescaped run text, stats)`
pairs handed to `writer.add`, for a given chunk partition (in the program,
`parse(code)`) and the source's lines. `chunk = next(parser)` before the loop
fails (`none`) when the partition is empty. -/
def viewRuns (chunks : List SourceChunk) (lines : List String) :
    Option (List (List Char × Stats)) :=
  match chunks with
  | [] => none
  | chunk :: rest => viewWalk [] chunk rest (enumerateSource 1 (lines.map String.data))

/-! ### Events-map lemmas for the sweep -/

/-- The registered coordinates of an `events` association list. -/
def keys (l : List (Pos × Stats)) : List Pos := l.map Prod.fst

/-- Sum of the registered deltas at all coordinates `≤ q`: the value the
running accumulator of the sweep has after passing coordinate `q`. -/
def sumLe : List (Pos × Stats) → Pos → Stats
  | [], _ => 0
  | (k, v) :: rest, q => (if posLe k q = true then v else 0) + sumLe rest q

theorem Stats.zero_eq : Stats.zero = (0 : Stats) := rfl

theorem Stats.sub_eq_add_zero_sub (a b : Stats) :
    a - b = a + (Stats.zero - b) := by
  cases a; cases b
  simp only [Stats.zero, Stats.sub_def, Stats.add_def, Stats.mk.injEq]
  refine ⟨?_, ?_, ?_⟩ <;> ring

theorem Stats.add_zero_sub_self (s : Stats) : s + (Stats.zero - s) = 0 := by
  cases s
  simp only [Stats.zero, Stats.sub_def, Stats.add_def, Stats.zero_def, Stats.mk.injEq]
  refine ⟨?_, ?_, ?_⟩ <;> ring

theorem subDelta_eq_addDelta (l : List (Pos × Stats)) (p : Pos) (s : Stats) :
    subDelta l p s = addDelta l p (Stats.zero - s) := by
  induction l with
  | nil => simp [subDelta, addDelta, Stats.zero_eq]
  | cons e rest ih =>
    obtain ⟨q, t⟩ := e
    by_cases h : q = p
    · simp only [subDelta, addDelta, if_pos h]
      rw [Stats.sub_eq_add_zero_sub]
    · simp only [subDelta, addDelta, if_neg h, ih]

theorem mem_keys_addDelta {l : List (Pos × Stats)} {p r : Pos} {s : Stats} :
    r ∈ keys (addDelta l p s) ↔ r ∈ keys l ∨ r = p := by
  induction l with
  | nil => simp [addDelta, keys]
  | cons e rest ih =>
    obtain ⟨q, t⟩ := e
    by_cases h : q = p
    · subst h
      simp [addDelta, keys]
      tauto
    · simp [addDelta, h, keys] at ih ⊢
      tauto

theorem nodup_keys_addDelta {l : List (Pos × Stats)} {p : Pos} {s : Stats}
    (h : (keys l).Nodup) : (keys (addDelta l p s)).Nodup := by
  induction l with
  | nil => simp [addDelta, keys]
  | cons e rest ih =>
    obtain ⟨q, t⟩ := e
    simp only [keys, List.map_cons, List.nodup_cons] at h
    by_cases hq : q = p
    · subst hq
      simpa [addDelta, keys, List.nodup_cons] using h
    · have := ih h.2
      simp only [addDelta, hq, if_false, keys, List.map_cons, List.nodup_cons]
      refine ⟨?_, this⟩
      intro hmem
      rcases mem_keys_addDelta.mp hmem with hmem | hmem
      · exact h.1 hmem
      · exact hq hmem

theorem mem_keys_registerObs {l : List (Pos × Stats)} {o : Observation} {r : Pos} :
    r ∈ keys (registerObs l o) ↔ r ∈ keys l ∨ r = o.start ∨ r = o.stop := by
  rw [registerObs, subDelta_eq_addDelta, mem_keys_addDelta, mem_keys_addDelta]
  tauto

theorem nodup_keys_registerObs {l : List (Pos × Stats)} {o : Observation}
    (h : (keys l).Nodup) : (keys (registerObs l o)).Nodup := by
  simp only [registerObs, subDelta_eq_addDelta]
  exact nodup_keys_addDelta (nodup_keys_addDelta h)

theorem mem_keys_foldl (obs : List Observation) :
    ∀ (init : List (Pos × Stats)) (r : Pos),
      r ∈ keys (obs.foldl registerObs init) ↔
        r ∈ keys init ∨ ∃ o ∈ obs, r = o.start ∨ r = o.stop := by
  induction obs with
  | nil =>
    intro init r
    simp
  | cons o rest ih =>
    intro init r
    rw [List.foldl_cons, ih, mem_keys_registerObs]
    constructor
    · rintro ((h | h | h) | ⟨x, hx, h⟩)
      · exact Or.inl h
      · exact Or.inr ⟨o, List.mem_cons_self o rest, Or.inl h⟩
      · exact Or.inr ⟨o, List.mem_cons_self o rest, Or.inr h⟩
      · exact Or.inr ⟨x, List.mem_cons_of_mem o hx, h⟩
    · rintro (h | ⟨x, hx, h⟩)
      · exact Or.inl (Or.inl h)
      · rcases List.mem_cons.mp hx with rfl | hx
        · rcases h with h | h
          · exact Or.inl (Or.inr (Or.inl h))
          · exact Or.inl (Or.inr (Or.inr h))
        · exact Or.inr ⟨x, hx, h⟩

theorem nodup_keys_foldl (obs : List Observation) :
    ∀ (init : List (Pos × Stats)), (keys init).Nodup →
      (keys (obs.foldl registerObs init)).Nodup := by
  induction obs with
  | nil =>
    intro init h
    simpa using h
  | cons o rest ih =>
    intro init h
    exact ih _ (nodup_keys_registerObs h)

theorem keys_initialEvents : keys initialEvents = [FIRST_POSTION, LAST_POSITION] := rfl

theorem nodup_keys_initialEvents : (keys initialEvents).Nodup := by
  rw [keys_initialEvents]
  simp [FIRST_POSTION, LAST_POSITION]

theorem mem_keys_buildEvents {obs : List Observation} {r : Pos} :
    r ∈ keys (buildEvents obs) ↔
      r = FIRST_POSTION ∨ r = LAST_POSITION ∨ ∃ o ∈ obs, r = o.start ∨ r = o.stop := by
  rw [buildEvents, mem_keys_foldl, keys_initialEvents]
  constructor
  · rintro (h | h)
    · rcases List.mem_cons.mp h with h | h
      · exact Or.inl h
      · exact Or.inr (Or.inl (List.mem_singleton.mp h))
    · exact Or.inr (Or.inr h)
  · rintro (h | h | h)
    · exact Or.inl (by simp [h])
    · exact Or.inl (by simp [h])
    · exact Or.inr h

theorem nodup_keys_buildEvents (obs : List Observation) :
    (keys (buildEvents obs)).Nodup :=
  nodup_keys_foldl obs initialEvents nodup_keys_initialEvents

theorem sumLe_eq_filter_sum (l : List (Pos × Stats)) (q : Pos) :
    sumLe l q = ((l.filter fun e => posLe e.1 q).map Prod.snd).sum := by
  induction l with
  | nil => rfl
  | cons e rest ih =>
    obtain ⟨k, v⟩ := e
    by_cases h : posLe k q = true
    · simp [sumLe, List.filter_cons, h, ih]
    · simp [sumLe, List.filter_cons, h, ih]

theorem sumLe_perm {l l' : List (Pos × Stats)} (h : l.Perm l') (q : Pos) :
    sumLe l q = sumLe l' q := by
  rw [sumLe_eq_filter_sum, sumLe_eq_filter_sum]
  exact ((h.filter _).map _).sum_eq

theorem sumLe_addDelta (l : List (Pos × Stats)) (p : Pos) (s : Stats) (q : Pos) :
    sumLe (addDelta l p s) q = sumLe l q + if posLe p q = true then s else 0 := by
  induction l with
  | nil =>
    by_cases h : posLe p q = true <;>
      simp [addDelta, sumLe, h, Stats.zero_eq]
  | cons e rest ih =>
    obtain ⟨k, v⟩ := e
    by_cases hk : k = p
    · subst hk
      by_cases h : posLe k q = true
      · simp only [addDelta, if_pos rfl, sumLe, h]
        simp
        abel
      · simp only [addDelta, if_pos rfl, sumLe, h]
        simp
    · simp only [addDelta, if_neg hk, sumLe, ih]
      abel

theorem sumLe_registerObs (l : List (Pos × Stats)) (o : Observation) (q : Pos) :
    sumLe (registerObs l o) q = sumLe l q +
      ((if posLe o.start q = true then o.stats else 0) +
        (if posLe o.stop q = true then Stats.zero - o.stats else 0)) := by
  rw [registerObs, subDelta_eq_addDelta, sumLe_addDelta, sumLe_addDelta]
  abel

theorem sumLe_initialEvents (q : Pos) : sumLe initialEvents q = 0 := by
  by_cases h1 : posLe FIRST_POSTION q = true <;>
    by_cases h2 : posLe LAST_POSITION q = true <;>
      simp [initialEvents, sumLe, h1, h2, Stats.zero_eq]

/-- The net signed contribution of the observations to all coordinates `≤ q`:
what each observation's `+= stats` at `start` and `-= stats` at `stop` add up
to over that range. -/
def coverDelta : List Observation → Pos → Stats
  | [], _ => 0
  | o :: rest, q =>
    ((if posLe o.start q = true then o.stats else 0) +
      (if posLe o.stop q = true then Stats.zero - o.stats else 0)) + coverDelta rest q

theorem sumLe_foldl (obs : List Observation) :
    ∀ (init : List (Pos × Stats)) (q : Pos),
      sumLe (obs.foldl registerObs init) q = sumLe init q + coverDelta obs q := by
  induction obs with
  | nil =>
    intro init q
    simp [coverDelta]
  | cons o rest ih =>
    intro init q
    rw [List.foldl_cons, ih, sumLe_registerObs, coverDelta]
    abel

theorem sumLe_buildEvents (obs : List Observation) (q : Pos) :
    sumLe (buildEvents obs) q = coverDelta obs q := by
  rw [buildEvents, sumLe_foldl, sumLe_initialEvents, zero_add]

theorem sumLe_eq_zero_of_forall_not {l : List (Pos × Stats)} {q : Pos}
    (h : ∀ k ∈ keys l, ¬ posLe k q = true) : sumLe l q = 0 := by
  induction l with
  | nil => rfl
  | cons e rest ih =>
    obtain ⟨k, v⟩ := e
    have hk : ¬ posLe k q = true := h k (by simp [keys])
    have hrest : ∀ r ∈ keys rest, ¬ posLe r q = true := by
      intro r hr
      exact h r (by simp [keys] at hr ⊢; exact Or.inr hr)
    rw [sumLe, if_neg hk, ih hrest, add_zero]

theorem sweep_start_mem : ∀ (l : List (Pos × Stats)) (s : Stats) (c : SourceChunk),
    c ∈ sweep s l → c.start ∈ keys l := by
  intro l
  induction l with
  | nil => intro s c h; simp [sweep] at h
  | cons a rest ih =>
    intro s c h
    obtain ⟨p, e⟩ := a
    cases rest with
    | nil => simp [sweep] at h
    | cons b t =>
      obtain ⟨q, f⟩ := b
      rw [sweep] at h
      rcases List.mem_cons.mp h with rfl | h
      · simp [keys]
      · have := ih (s + e) c h
        simp [keys] at this ⊢
        tauto

theorem sorted_keys_tail_gt {p : Pos} {e : Stats} {rest : List (Pos × Stats)}
    (hsort : List.Sorted eventLe ((p, e) :: rest))
    (hnodup : (keys ((p, e) :: rest)).Nodup) :
    ∀ k ∈ keys rest, ¬ posLe k p = true := by
  intro k hk hle
  obtain ⟨x, hx, hfst⟩ := List.mem_map.mp hk
  have hpk : posLe p k = true := by
    have := (List.sorted_cons.mp hsort).1 x hx
    rw [eventLe] at this
    rw [← hfst]
    exact this
  have : k = p := posLe_antisymm hle hpk
  subst this
  simp only [keys, List.map_cons, List.nodup_cons] at hnodup
  exact hnodup.1 hk

theorem sweep_stats : ∀ (l : List (Pos × Stats)) (s : Stats) (c : SourceChunk),
    List.Sorted eventLe l → (keys l).Nodup → c ∈ sweep s l →
    c.stats = s + sumLe l c.start := by
  intro l
  induction l with
  | nil => intro s c _ _ h; simp [sweep] at h
  | cons a rest ih =>
    intro s c hsort hnodup h
    obtain ⟨p, e⟩ := a
    cases rest with
    | nil => simp [sweep] at h
    | cons b t =>
      obtain ⟨q, f⟩ := b
      rw [sweep] at h
      rcases List.mem_cons.mp h with hc | hmem
      · subst hc
        show s + e = s + sumLe ((p, e) :: (q, f) :: t) p
        have hzero : sumLe ((q, f) :: t) p = 0 :=
          sumLe_eq_zero_of_forall_not (sorted_keys_tail_gt hsort hnodup)
        have hexp : sumLe ((p, e) :: (q, f) :: t) p =
            (if posLe p p = true then e else 0) + sumLe ((q, f) :: t) p := rfl
        rw [hexp, if_pos (posLe_refl p), hzero, add_zero]
      · have hsort' : List.Sorted eventLe ((q, f) :: t) := (List.sorted_cons.mp hsort).2
        have hnodup' : (keys ((q, f) :: t)).Nodup := by
          simp only [keys, List.map_cons, List.nodup_cons] at hnodup ⊢
          exact ⟨hnodup.2.1, hnodup.2.2⟩
        rw [ih (s + e) c hsort' hnodup' hmem]
        have hmemk := sweep_start_mem _ _ _ hmem
        obtain ⟨x, hx, hfst⟩ := List.mem_map.mp hmemk
        have hle : posLe p c.start = true := by
          have := (List.sorted_cons.mp hsort).1 x hx
          rw [eventLe] at this
          rw [← hfst]
          exact this
        have hexp : sumLe ((p, e) :: (q, f) :: t) c.start =
            (if posLe p c.start = true then e else 0) + sumLe ((q, f) :: t) c.start := rfl
        rw [hexp, if_pos hle, add_assoc]

theorem sweep_not_inside : ∀ (l : List (Pos × Stats)) (s : Stats) (c : SourceChunk)
    (k : Pos), List.Sorted eventLe l → (keys l).Nodup → c ∈ sweep s l →
    k ∈ keys l → posLe k c.start = true ∨ posLe c.stop k = true := by
  intro l
  induction l with
  | nil => intro s c k _ _ h; simp [sweep] at h
  | cons a rest ih =>
    intro s c k hsort hnodup h hk
    obtain ⟨p, e⟩ := a
    cases rest with
    | nil => simp [sweep] at h
    | cons b t =>
      obtain ⟨q, f⟩ := b
      rw [sweep] at h
      have hsort' : List.Sorted eventLe ((q, f) :: t) := (List.sorted_cons.mp hsort).2
      have hnodup' : (keys ((q, f) :: t)).Nodup := by
        simp only [keys, List.map_cons, List.nodup_cons] at hnodup ⊢
        exact ⟨hnodup.2.1, hnodup.2.2⟩
      rcases List.mem_cons.mp h with hc | hmem
      · subst hc
        show posLe k p = true ∨ posLe q k = true
        rcases List.mem_cons.mp hk with hkp | hk2
        · subst hkp
          exact Or.inl (posLe_refl k)
        · right
          obtain ⟨x, hx, hfst⟩ := List.mem_map.mp hk2
          rcases List.mem_cons.mp hx with hxq | hx2
          · subst hxq
            rw [← hfst]
            exact posLe_refl _
          · have := (List.sorted_cons.mp hsort').1 x hx2
            rw [eventLe] at this
            rw [← hfst]
            exact this
      · rcases List.mem_cons.mp hk with hkp | hk2
        · subst hkp
          left
          have hmemk := sweep_start_mem _ _ _ hmem
          obtain ⟨x, hx, hfst⟩ := List.mem_map.mp hmemk
          have := (List.sorted_cons.mp hsort).1 x hx
          rw [eventLe] at this
          rw [← hfst]
          exact this
        · exact ih (s + e) c k hsort' hnodup' hmem hk2

theorem sweep_start_lt_stop : ∀ (l : List (Pos × Stats)) (s : Stats) (c : SourceChunk),
    List.Sorted eventLe l → (keys l).Nodup → c ∈ sweep s l →
    posLt c.start c.stop = true := by
  intro l
  induction l with
  | nil => intro s c _ _ h; simp [sweep] at h
  | cons a rest ih =>
    intro s c hsort hnodup h
    obtain ⟨p, e⟩ := a
    cases rest with
    | nil => simp [sweep] at h
    | cons b t =>
      obtain ⟨q, f⟩ := b
      rw [sweep] at h
      rcases List.mem_cons.mp h with rfl | h
      · show posLt p q = true
        have hle : posLe p q = true := by
          have := (List.sorted_cons.mp hsort).1 (q, f) (List.mem_cons_self _ _)
          exact this
        have hne : p ≠ q := by
          intro he
          subst he
          simp [keys] at hnodup
        exact posLt_iff_le_ne.mpr ⟨hle, hne⟩
      · have hsort' : List.Sorted eventLe ((q, f) :: t) := (List.sorted_cons.mp hsort).2
        have hnodup' : (keys ((q, f) :: t)).Nodup := by
          simp only [keys, List.map_cons, List.nodup_cons] at hnodup ⊢
          exact ⟨hnodup.2.1, hnodup.2.2⟩
        exact ih (s + e) c hsort' hnodup' h

theorem sweep_chain : ∀ (l : List (Pos × Stats)) (s : Stats),
    List.Chain' (fun a b => a.stop = b.start) (sweep s l) := by
  intro l
  induction l with
  | nil => intro s; simp [sweep]
  | cons a rest ih =>
    intro s
    obtain ⟨p, e⟩ := a
    cases rest with
    | nil => simp [sweep]
    | cons b t =>
      obtain ⟨q, f⟩ := b
      rw [sweep, List.chain'_cons']
      refine ⟨?_, ih (s + e)⟩
      intro c hc
      cases t with
      | nil => simp [sweep] at hc
      | cons x t2 =>
        obtain ⟨r, g⟩ := x
        rw [sweep] at hc
        simp only [List.head?_cons, Option.mem_def, Option.some.injEq] at hc
        rw [← hc]

theorem sweep_head_start (p q : Pos) (e f : Stats) (t : List (Pos × Stats))
    (s : Stats) :
    (sweep s ((p, e) :: (q, f) :: t)).head? = some (SourceChunk.mk p q (s + e)) := rfl

theorem sweep_getLast_stop : ∀ (t : List (Pos × Stats)) (a b : Pos × Stats)
    (s : Stats) (c : SourceChunk),
    (sweep s (a :: b :: t)).getLast? = some c →
    some c.stop = ((b :: t).getLast?).map Prod.fst := by
  intro t
  induction t with
  | nil =>
    intro a b s c h
    obtain ⟨p, e⟩ := a
    obtain ⟨q, f⟩ := b
    simp [sweep] at h
    simp [← h]
  | cons x t2 ih =>
    intro a b s c h
    obtain ⟨p, e⟩ := a
    obtain ⟨q, f⟩ := b
    obtain ⟨r, g⟩ := x
    have h2 : (SourceChunk.mk q r (s + e + f) ::
        sweep (s + e + f) ((r, g) :: t2)).getLast? = some c := by
      have h1 : (SourceChunk.mk p q (s + e) :: SourceChunk.mk q r (s + e + f) ::
          sweep (s + e + f) ((r, g) :: t2)).getLast? = some c := h
      rw [List.getLast?_cons_cons] at h1
      exact h1
    have h3 : (sweep (s + e) ((q, f) :: (r, g) :: t2)).getLast? = some c := h2
    rw [ih (q, f) (r, g) (s + e) c h3, List.getLast?_cons_cons]

theorem sorted_head_key {l : List (Pos × Stats)} {m : Pos}
    (hsort : List.Sorted eventLe l) (hm : m ∈ keys l)
    (hmin : ∀ k ∈ keys l, posLe m k = true) :
    (l.head?).map Prod.fst = some m := by
  cases l with
  | nil => simp [keys] at hm
  | cons a t =>
    have ha : a.1 = m := by
      have h1 : posLe m a.1 = true := hmin a.1 (by simp [keys])
      rcases List.mem_cons.mp hm with hma | hmt
      · exact hma.symm
      · obtain ⟨x, hx, hfst⟩ := List.mem_map.mp hmt
        have h2 : posLe a.1 m = true := by
          have := (List.sorted_cons.mp hsort).1 x hx
          rw [eventLe] at this
          rw [← hfst]
          exact this
        exact posLe_antisymm h2 h1
    show some a.1 = some m
    rw [ha]
theorem sorted_getLast_key : ∀ (l : List (Pos × Stats)) (m : Pos),
    List.Sorted eventLe l → m ∈ keys l →
    (∀ k ∈ keys l, posLe k m = true) →
    (l.getLast?).map Prod.fst = some m := by
  intro l
  induction l with
  | nil => intro m _ hm; simp [keys] at hm
  | cons a t ih =>
    intro m hsort hm hmax
    cases t with
    | nil =>
      simp only [keys, List.map_cons, List.map_nil, List.mem_cons,
        List.not_mem_nil, or_false] at hm
      simp [hm]
    | cons b t2 =>
      rw [List.getLast?_cons_cons]
      have hsort' : List.Sorted eventLe (b :: t2) := (List.sorted_cons.mp hsort).2
      have hmax' : ∀ k ∈ keys (b :: t2), posLe k m = true := by
        intro k hk
        exact hmax k (by simp [keys] at hk ⊢; tauto)
      have hm' : m ∈ keys (b :: t2) := by
        rcases List.mem_cons.mp hm with hma | hmt
        · have h1 : posLe a.1 b.1 = true := by
            have := (List.sorted_cons.mp hsort).1 b (List.mem_cons_self _ _)
            exact this
          have h2 : posLe b.1 m = true := hmax b.1 (by simp [keys])
          have h3 : posLe m b.1 = true := by
            rw [hma]
            exact h1
          have : b.1 = m := posLe_antisymm h2 h3
          rw [← this]
          simp [keys]
        · exact hmt
      exact ih m hsort' hm' hmax'

theorem sortEvents_sorted (l : List (Pos × Stats)) :
    List.Sorted eventLe (sortEvents l) :=
  List.sorted_insertionSort eventLe l

theorem sortEvents_perm (l : List (Pos × Stats)) : (sortEvents l).Perm l :=
  List.perm_insertionSort eventLe l

theorem keys_sortEvents_nodup (obs : List Observation) :
    (keys (sortEvents (buildEvents obs))).Nodup := by
  have hperm := (sortEvents_perm (buildEvents obs)).map Prod.fst
  exact (hperm.nodup_iff).mpr (nodup_keys_buildEvents obs)

theorem mem_keys_sortEvents {obs : List Observation} {r : Pos} :
    r ∈ keys (sortEvents (buildEvents obs)) ↔ r ∈ keys (buildEvents obs) :=
  ((sortEvents_perm (buildEvents obs)).map Prod.fst).mem_iff

theorem sumLe_sortEvents (obs : List Observation) (q : Pos) :
    sumLe (sortEvents (buildEvents obs)) q = coverDelta obs q := by
  rw [sumLe_perm (sortEvents_perm (buildEvents obs)) q, sumLe_buildEvents]

/-- A coordinate lies inside the document interval tracked by the sweep. -/
def inDocument (p : Pos) : Prop :=
  posLe FIRST_POSTION p = true ∧ posLe p LAST_POSITION = true

instance (p : Pos) : Decidable (inDocument p) :=
  inferInstanceAs (Decidable (_ ∧ _))

theorem posLt_irrefl (a : Pos) : ¬ posLt a a = true := by
  rw [posLt_iff]; omega

/-- The stats of every chunk of `parse` equal the accumulated net delta of the
observations over all coordinates up to the chunk's start. -/
theorem parse_chunk_stats (obs : List Observation) (c : SourceChunk)
    (hc : c ∈ parse obs) : c.stats = coverDelta obs c.start := by
  have hsort := sortEvents_sorted (buildEvents obs)
  have hnodup := keys_sortEvents_nodup obs
  have h := sweep_stats _ Stats.zero c hsort hnodup hc
  rw [h, sumLe_sortEvents, Stats.zero_eq, zero_add]

theorem cover_term_eq (o : Observation) (c : SourceChunk) (p : Pos)
    (hA : posLe o.start c.start = true ∨ posLe c.stop o.start = true)
    (hB : posLe o.stop c.start = true ∨ posLe c.stop o.stop = true)
    (hC : posLe o.start o.stop = true)
    (hp1 : posLe c.start p = true) (hp2 : posLt p c.stop = true) :
    (if posLe o.start c.start = true then o.stats else 0) +
      (if posLe o.stop c.start = true then Stats.zero - o.stats else 0) =
    if (posLe o.start p && posLt p o.stop) = true then o.stats else 0 := by
  by_cases h1 : posLe o.start c.start = true
  · by_cases h2 : posLe o.stop c.start = true
    · have hns : ¬ posLt p o.stop = true := by
        intro hlt
        exact posLt_irrefl p (posLt_of_lt_of_le hlt (posLe_trans h2 hp1))
      have hcond : ¬ ((posLe o.start p && posLt p o.stop) = true) := by
        rw [Bool.and_eq_true]
        rintro ⟨_, hlt⟩
        exact hns hlt
      rw [if_pos h1, if_pos h2, if_neg hcond]
      exact Stats.add_zero_sub_self o.stats
    · rcases hB with hB' | hB'
      · exact absurd hB' h2
      · have hcond : (posLe o.start p && posLt p o.stop) = true := by
          rw [Bool.and_eq_true]
          exact ⟨posLe_trans h1 hp1, posLt_of_lt_of_le hp2 hB'⟩
        rw [if_pos h1, if_neg h2, if_pos hcond, add_zero]
  · rcases hA with hA' | hA'
    · exact absurd hA' h1
    · have hnstart : ¬ posLe o.start p = true := by
        intro hsp
        exact posLt_irrefl o.start (posLt_of_le_of_lt hsp (posLt_of_lt_of_le hp2 hA'))
      have h2 : ¬ posLe o.stop c.start = true := by
        intro h2'
        exact hnstart (posLe_trans hC (posLe_trans h2' hp1))
      have hcond : ¬ ((posLe o.start p && posLt p o.stop) = true) := by
        rw [Bool.and_eq_true]
        rintro ⟨hsp, _⟩
        exact hnstart hsp
      rw [if_neg h1, if_neg h2, if_neg hcond, add_zero]

theorem coverDelta_eq_filter_sum (p : Pos) (c : SourceChunk)
    (hp1 : posLe c.start p = true) (hp2 : posLt p c.stop = true) :
    ∀ (obs : List Observation),
    (∀ o ∈ obs, posLe o.start o.stop = true) →
    (∀ o ∈ obs, (posLe o.start c.start = true ∨ posLe c.stop o.start = true) ∧
      (posLe o.stop c.start = true ∨ posLe c.stop o.stop = true)) →
    coverDelta obs c.start =
      ((obs.filter fun o => posLe o.start p && posLt p o.stop).map
        Observation.stats).sum := by
  intro obs
  induction obs with
  | nil => intro _ _; rfl
  | cons o rest ih =>
    intro hwf hkey
    have hterm := cover_term_eq o c p (hkey o (List.mem_cons_self _ _)).1
      (hkey o (List.mem_cons_self _ _)).2 (hwf o (List.mem_cons_self _ _)) hp1 hp2
    rw [coverDelta, hterm,
      ih (fun x hx => hwf x (List.mem_cons_of_mem o hx))
        (fun x hx => hkey x (List.mem_cons_of_mem o hx)),
      List.filter_cons]
    by_cases hpred : (posLe o.start p && posLt p o.stop) = true
    · rw [if_pos hpred, if_pos hpred, List.map_cons, List.sum_cons]
    · rw [if_neg hpred, if_neg hpred, zero_add]

/-- The coverage identity, as a reusable core: the stats of any chunk of
`parse` that contains the probe coordinate `p` equal the sum of the stats of
the observations whose span contains `p` (observations must be well-formed
half-open spans, `start ≤ stop`). -/
theorem parse_coverage_core (obs : List Observation)
    (hwf : ∀ o ∈ obs, posLe o.start o.stop = true)
    (p : Pos) (c : SourceChunk) (hc : c ∈ parse obs)
    (hp1 : posLe c.start p = true) (hp2 : posLt p c.stop = true) :
    c.stats = ((obs.filter fun o => posLe o.start p && posLt p o.stop).map
      Observation.stats).sum := by
  rw [parse_chunk_stats obs c hc]
  apply coverDelta_eq_filter_sum p c hp1 hp2 obs hwf
  intro o ho
  have hsort := sortEvents_sorted (buildEvents obs)
  have hnodup := keys_sortEvents_nodup obs
  constructor
  · exact sweep_not_inside _ Stats.zero c o.start hsort hnodup hc
      (mem_keys_sortEvents.mpr (mem_keys_buildEvents.mpr
        (Or.inr (Or.inr ⟨o, ho, Or.inl rfl⟩))))
  · exact sweep_not_inside _ Stats.zero c o.stop hsort hnodup hc
      (mem_keys_sortEvents.mpr (mem_keys_buildEvents.mpr
        (Or.inr (Or.inr ⟨o, ho, Or.inr rfl⟩))))

theorem sortEvents_shape (obs : List Observation) :
    ∃ a b t, sortEvents (buildEvents obs) = a :: b :: t := by
  have hF : FIRST_POSTION ∈ keys (sortEvents (buildEvents obs)) :=
    mem_keys_sortEvents.mpr (mem_keys_buildEvents.mpr (Or.inl rfl))
  have hL : LAST_POSITION ∈ keys (sortEvents (buildEvents obs)) :=
    mem_keys_sortEvents.mpr (mem_keys_buildEvents.mpr (Or.inr (Or.inl rfl)))
  cases hl : sortEvents (buildEvents obs) with
  | nil =>
    rw [hl] at hF
    simp [keys] at hF
  | cons a t =>
    cases t with
    | nil =>
      rw [hl] at hF hL
      simp [keys] at hF hL
      exact absurd (hF.trans hL.symm) (by decide)
    | cons b t2 => exact ⟨a, b, t2, rfl⟩

/-- C1: Coverage equivalence of the interval synthesizer — for every list of
scored observations (well-formed half-open spans, `start ≤ stop`) and every
coordinate `p`, the Stats of the chunk emitted by `parse` that contains `p`
(`c.start ≤ p < c.stop`) equal the sum of the Stats of every observation whose
span contains `p`. -/
theorem parse_coverage_equivalence (obs : List Observation)
    (hwf : ∀ o ∈ obs, posLe o.start o.stop = true)
    (p : Pos) (c : SourceChunk) (hc : c ∈ parse obs)
    (hp1 : posLe c.start p = true) (hp2 : posLt p c.stop = true) :
    c.stats = ((obs.filter fun o => posLe o.start p && posLt p o.stop).map
      Observation.stats).sum :=
  parse_coverage_core obs hwf p c hc hp1 hp2

/-- C2: Tiling invariant of the interval synthesizer — for any finite list of
observations whose coordinates lie inside the document, the chunk sequence of
`parse` is nonempty even with zero observations, starts at `FIRST_POSTION`,
ends at `LAST_POSITION`, each chunk's stop is the next chunk's start (no gaps,
no overlaps), and every chunk is nonempty (`start < stop`), so the chunks are
strictly ascending and exactly cover the whole document interval. -/
theorem parse_tiling (obs : List Observation)
    (hin : ∀ o ∈ obs, inDocument o.start ∧ inDocument o.stop) :
    parse obs ≠ [] ∧
    (∀ c, (parse obs).head? = some c → c.start = FIRST_POSTION) ∧
    (∀ c, (parse obs).getLast? = some c → c.stop = LAST_POSITION) ∧
    List.Chain' (fun a b => a.stop = b.start) (parse obs) ∧
    (∀ c ∈ parse obs, posLt c.start c.stop = true) := by
  obtain ⟨a, b, t, hl⟩ := sortEvents_shape obs
  obtain ⟨p, e⟩ := a
  obtain ⟨q, f⟩ := b
  have hsort := sortEvents_sorted (buildEvents obs)
  have hnodup := keys_sortEvents_nodup obs
  have hbounds : ∀ k ∈ keys (sortEvents (buildEvents obs)),
      posLe FIRST_POSTION k = true ∧ posLe k LAST_POSITION = true := by
    intro k hk
    rcases mem_keys_buildEvents.mp (mem_keys_sortEvents.mp hk) with h | h | ⟨o, ho, h | h⟩
    · subst h; exact ⟨posLe_refl _, by decide⟩
    · subst h; exact ⟨by decide, posLe_refl _⟩
    · subst h; exact ⟨(hin o ho).1.1, (hin o ho).1.2⟩
    · subst h; exact ⟨(hin o ho).2.1, (hin o ho).2.2⟩
  have hF : FIRST_POSTION ∈ keys (sortEvents (buildEvents obs)) :=
    mem_keys_sortEvents.mpr (mem_keys_buildEvents.mpr (Or.inl rfl))
  have hL : LAST_POSITION ∈ keys (sortEvents (buildEvents obs)) :=
    mem_keys_sortEvents.mpr (mem_keys_buildEvents.mpr (Or.inr (Or.inl rfl)))
  have hheadkey := sorted_head_key hsort hF (fun k hk => (hbounds k hk).1)
  have hlastkey := sorted_getLast_key _ LAST_POSITION hsort hL
    (fun k hk => (hbounds k hk).2)
  rw [hl] at hsort hnodup hheadkey hlastkey
  have hp : p = FIRST_POSTION := by
    have : some p = some FIRST_POSTION := hheadkey
    exact Option.some.inj this
  have hparse : parse obs = sweep Stats.zero ((p, e) :: (q, f) :: t) := by
    rw [parse, hl]
  refine ⟨?_, ?_, ?_, ?_, ?_⟩
  · rw [hparse]
    exact List.cons_ne_nil _ _
  · intro c hc
    rw [hparse, sweep_head_start] at hc
    have := Option.some.inj hc
    rw [← this, ← hp]
  · intro c hc
    rw [hparse] at hc
    have hstop := sweep_getLast_stop t (p, e) (q, f) Stats.zero c hc
    rw [List.getLast?_cons_cons] at hlastkey
    rw [hlastkey] at hstop
    exact Option.some.inj hstop
  · rw [hparse]
    exact sweep_chain _ _
  · intro c hc
    rw [hparse] at hc
    exact sweep_start_lt_stop _ _ c hsort hnodup hc

/-- Witness for C1 at a concrete input: two overlapping observations; the
chunk `[(1,2), (2,0))` contains the probe `(1,3)` and carries the sum of both
observations' stats. -/
theorem parse_coverage_equivalence_witness :
    (SourceChunk.mk (1, 2) (2, 0) (Stats.mk 1 0 1)).stats =
      (([Observation.mk (1, 0) (2, 0) (Stats.mk 1 0 0),
         Observation.mk (1, 2) (3, 0) (Stats.mk 0 0 1)].filter
          fun o => posLe o.start (1, 3) && posLt (1, 3) o.stop).map
        Observation.stats).sum :=
  parse_coverage_equivalence
    [Observation.mk (1, 0) (2, 0) (Stats.mk 1 0 0),
     Observation.mk (1, 2) (3, 0) (Stats.mk 0 0 1)]
    (by decide) (1, 3) (SourceChunk.mk (1, 2) (2, 0) (Stats.mk 1 0 1))
    (by decide) (by decide) (by decide)

/-- Witness for C2 at a concrete input: one observation. -/
theorem parse_tiling_witness :
    parse [Observation.mk (1, 0) (2, 0) (Stats.mk 1 0 0)] ≠ [] ∧
    (∀ c, (parse [Observation.mk (1, 0) (2, 0) (Stats.mk 1 0 0)]).head? = some c →
      c.start = FIRST_POSTION) ∧
    (∀ c, (parse [Observation.mk (1, 0) (2, 0) (Stats.mk 1 0 0)]).getLast? = some c →
      c.stop = LAST_POSITION) ∧
    List.Chain' (fun a b => a.stop = b.start)
      (parse [Observation.mk (1, 0) (2, 0) (Stats.mk 1 0 0)]) ∧
    (∀ c ∈ parse [Observation.mk (1, 0) (2, 0) (Stats.mk 1 0 0)],
      posLt c.start c.stop = true) :=
  parse_tiling [Observation.mk (1, 0) (2, 0) (Stats.mk 1 0 0)] (by decide)

/-- C3 counterexample: a zero-width observation at `(2, 0)` does change the
emitted chunk partition — its coordinate is registered in `events` with a net
zero delta, and `parse` makes every registered coordinate a chunk boundary, so
the single document-spanning chunk is split in two. -/
theorem zero_width_changes_partition :
    parse [Observation.mk (2, 0) (2, 0) (Stats.mk 0 0 1)] ≠ parse [] ∧
    (parse [Observation.mk (2, 0) (2, 0) (Stats.mk 0 0 1)]).length = 2 ∧
    (parse []).length = 1 := by
  refine ⟨by decide, by decide, by decide⟩

/-- C3 (amended): a zero-width observation nets to a canceling delta pair at
its single coordinate; while it may add a chunk boundary there, it leaves the
aggregate Stats of every probe point unchanged: any chunk of
`parse (o :: obs)` containing `p` carries the same stats as any chunk of
`parse obs` containing `p`. -/
theorem zero_width_coverage_unchanged (o : Observation) (hzw : o.start = o.stop)
    (obs : List Observation) (hwf : ∀ x ∈ obs, posLe x.start x.stop = true)
    (p : Pos) (c c' : SourceChunk)
    (hc : c ∈ parse (o :: obs)) (hc' : c' ∈ parse obs)
    (hp1 : posLe c.start p = true) (hp2 : posLt p c.stop = true)
    (hp1' : posLe c'.start p = true) (hp2' : posLt p c'.stop = true) :
    c.stats = c'.stats := by
  have hwf' : ∀ x ∈ o :: obs, posLe x.start x.stop = true := by
    intro x hx
    rcases List.mem_cons.mp hx with hxo | hx
    · subst hxo
      rw [hzw]
      exact posLe_refl _
    · exact hwf x hx
  rw [parse_coverage_core (o :: obs) hwf' p c hc hp1 hp2,
    parse_coverage_core obs hwf p c' hc' hp1' hp2', List.filter_cons]
  have hdrop : ¬ ((posLe o.start p && posLt p o.stop) = true) := by
    rw [Bool.and_eq_true]
    rintro ⟨hle, hlt⟩
    rw [hzw] at hle
    exact posLt_irrefl p (posLt_of_lt_of_le hlt hle)
  rw [if_neg hdrop]

/-- Witness for the amended C3 at a concrete input: prepending a zero-width
observation at `(2, 0)` splits the chunk but the chunk containing `(2, 5)`
keeps the same stats. -/
theorem zero_width_coverage_unchanged_witness :
    (SourceChunk.mk (2, 0) (3, 0) (Stats.mk 1 0 0)).stats =
      (SourceChunk.mk (1, 0) (3, 0) (Stats.mk 1 0 0)).stats :=
  zero_width_coverage_unchanged
    (Observation.mk (2, 0) (2, 0) (Stats.mk 0 0 1)) rfl
    [Observation.mk (1, 0) (3, 0) (Stats.mk 1 0 0)] (by decide)
    (2, 5)
    (SourceChunk.mk (2, 0) (3, 0) (Stats.mk 1 0 0))
    (SourceChunk.mk (1, 0) (3, 0) (Stats.mk 1 0 0))
    (by decide) (by decide) (by decide) (by decide) (by decide) (by decide)

/-- C8: `Stats` forms an abelian group under `+` and `-`: addition is
commutative and associative, `a + b - b = a`, and the all-zero `Stats()` is an
identity on both sides. -/
theorem stats_group_laws (a b c : Stats) :
    a + b = b + a ∧ (a + b) + c = a + (b + c) ∧ a + b - b = a ∧
    a + Stats.zero = a ∧ Stats.zero + a = a := by
  refine ⟨add_comm a b, add_assoc a b c, Stats.add_sub_cancel_right a b, ?_, ?_⟩
  · rw [Stats.zero_eq, add_zero]
  · rw [Stats.zero_eq, zero_add]

/-- C4: `score_instruction` equals the spec's three-rule reference classifier
for every family of specializing operations, every instruction and every
optional previous instruction, and its result is always one-hot. -/
theorem score_instruction_correct (family : List String)
    (instruction : Instruction) (previous : Option Instruction) :
    score_instruction family instruction previous =
      classifierSpec family instruction previous ∧
    (score_instruction family instruction previous).oneHot := by
  have heq : score_instruction family instruction previous =
      classifierSpec family instruction previous := by
    rw [score_instruction.eq_def, classifierSpec.eq_def]
    by_cases h1 : family.contains instruction.opname = true
    · rw [if_pos h1, if_pos h1]
    · rw [if_neg h1, if_neg h1]
      rcases previous with _ | prev <;> rfl
  refine ⟨heq, ?_⟩
  have hval : score_instruction family instruction previous = Stats.mk 1 0 0 ∨
      score_instruction family instruction previous = Stats.mk 0 1 0 ∨
      score_instruction family instruction previous = Stats.mk 0 0 1 := by
    rw [score_instruction.eq_def]
    by_cases h1 : family.contains instruction.opname = true
    · rw [if_pos h1]
      by_cases h2 : endsWithAdaptive instruction.opname = true
      · rw [if_pos h2]
        exact Or.inr (Or.inl rfl)
      · rw [if_neg h2]
        exact Or.inl rfl
    · rw [if_neg h1]
      rcases previous with _ | prev
      · exact Or.inr (Or.inr rfl)
      · show (if (is_superinstruction prev && !instruction.is_jump_target) = true
              then Stats.mk 1 0 0 else Stats.mk 0 0 1) = Stats.mk 1 0 0 ∨
            (if (is_superinstruction prev && !instruction.is_jump_target) = true
              then Stats.mk 1 0 0 else Stats.mk 0 0 1) = Stats.mk 0 1 0 ∨
            (if (is_superinstruction prev && !instruction.is_jump_target) = true
              then Stats.mk 1 0 0 else Stats.mk 0 0 1) = Stats.mk 0 0 1
        by_cases h3 : (is_superinstruction prev && !instruction.is_jump_target) = true
        · rw [if_pos h3]
          exact Or.inl rfl
        · rw [if_neg h3]
          exact Or.inr (Or.inr rfl)
  rcases hval with hv | hv | hv <;> rw [Stats.oneHot, hv]
  · exact Or.inl rfl
  · exact Or.inr (Or.inl rfl)
  · exact Or.inr (Or.inr rfl)

/-- C7: an instruction whose position record has any missing coordinate
contributes no observation to the sweep, yet still becomes the `previous`
instruction against which the following instructions are scored for fusion
detection. -/
theorem scoreObservations_missing_position (family : List String)
    (previous : Option Instruction) (instruction : Instruction)
    (rest : List Instruction)
    (h : instruction.lineno = none ∨ instruction.end_lineno = none ∨
      instruction.col_offset = none ∨ instruction.end_col_offset = none) :
    scoreObservations family previous (instruction :: rest) =
      scoreObservations family (some instruction) rest := by
  rcases h1 : instruction.lineno with _ | l <;>
    rcases h2 : instruction.end_lineno with _ | el <;>
      rcases h3 : instruction.col_offset with _ | co <;>
        rcases h4 : instruction.end_col_offset with _ | ec <;>
          simp_all [scoreObservations]

/-- Witness for C7 at a concrete input: a pseudo-instruction with no line
number is skipped but becomes `previous`. -/
theorem scoreObservations_missing_position_witness :
    scoreObservations ["LOAD_CONST__LOAD_FAST"]
      none
      [Instruction.mk "RESUME" false none none none none,
       Instruction.mk "LOAD_FAST" false (some 1) (some 1) (some 0) (some 5)] =
    scoreObservations ["LOAD_CONST__LOAD_FAST"]
      (some (Instruction.mk "RESUME" false none none none none))
      [Instruction.mk "LOAD_FAST" false (some 1) (some 1) (some 0) (some 5)] :=
  scoreObservations_missing_position ["LOAD_CONST__LOAD_FAST"] none
    (Instruction.mk "RESUME" false none none none none)
    [Instruction.mk "LOAD_FAST" false (some 1) (some 1) (some 0) (some 5)]
    (Or.inl rfl)

/-- C6 (amended): `get_code_for_path` returns the first unit in the registry's
iteration order whose recorded file resolves to the same file identity as the
queried path, and never fails: a unit whose recorded file (or the queried path
itself) no longer exists raises `FileNotFoundError` inside `samefile`, which is
caught and treated as a non-match. Equivalently, the loop is `find?` of the
`samefileOk` predicate over the iteration order. -/
theorem get_code_for_path_eq_find (fs : String → Option Nat) (path : String)
    (registry : List Code) :
    get_code_for_path fs path registry = registry.find? (samefileOk fs path) := by
  induction registry with
  | nil => rfl
  | cons code rest ih =>
    rw [get_code_for_path.eq_def]
    cases hp : fs path with
    | none =>
      rw [List.find?_cons_of_neg _ (by simp [samefileOk, hp])]
      cases hc : fs code.co_filename <;> simp [hp, hc, ih]
    | some a =>
      cases hc : fs code.co_filename with
      | none =>
        rw [List.find?_cons_of_neg _ (by simp [samefileOk, hp, hc])]
        simp [hp, hc, ih]
      | some b =>
        by_cases he : a = b
        · rw [List.find?_cons_of_pos _ (by simp [samefileOk, hp, hc, he])]
          simp [hp, hc, he]
        · rw [List.find?_cons_of_neg _ (by simp [samefileOk, hp, hc, he])]
          simp [hp, hc, he, ih]

/-- C6 counterexample: capturing the same (existing) file twice puts two units
with the same file identity in the registry; iterating them in capture order —
one possible iteration order of the Python `set`, whose order is arbitrary —
`get_code_for_path` returns the FIRST match, i.e. the oldest capture, not the
most recent one (`captureIndex` records capture order; index 1 is the most
recent). -/
theorem get_code_for_path_not_most_recent :
    get_code_for_path (fun s => if s = "a.py" then some 7 else none) "a.py"
      [Code.mk "a.py" 0, Code.mk "a.py" 1] = some (Code.mk "a.py" 0) ∧
    (Code.mk "a.py" 0).captureIndex < (Code.mk "a.py" 1).captureIndex := by
  refine ⟨by decide, by decide⟩


/-- C9: the renderer's color computation agrees with the spec's reference
definition (neutral when `quickened = specialized + adaptive` is zero, else
`hue = (1/3)·specialized/quickened` negated on the alternate axis,
`lightness = max(1/2, unquickened/(quickened+unquickened))`, `saturation = 1`),
and a 100%-specialized chunk gets lightness exactly 1/2, saturation 1 and the
hue extreme `1/3`, mirrored to `-1/3` in blue mode. (The color is tracked up
to the exact rational HLS triple handed to `colorsys.hls_to_rgb`; the Python
float computation evaluates the same expressions in binary floating point.) -/
theorem color_matches_reference (writer : HTMLWriter) (stats : Stats) :
    writer.color stats = rendererColorSpec writer.blue stats ∧
    (stats.specialized + stats.adaptive = 0 → writer.color stats = none) ∧
    (0 < stats.specialized → stats.adaptive = 0 → stats.unquickened = 0 →
      writer.color stats =
        some (if writer.blue then -(1 / 3 : ℚ) else 1 / 3, 1 / 2, 1)) := by
  refine ⟨rfl, ?_, ?_⟩
  · intro h
    simp only [HTMLWriter.color]
    rw [if_pos h]
  · intro hs ha hu
    simp only [HTMLWriter.color]
    rw [ha, hu]
    have hq : ¬ ((stats.specialized + 0 : Int) = 0) := by omega
    rw [if_neg hq]
    have hnz : (stats.specialized : ℚ) ≠ 0 := Int.cast_ne_zero.mpr (by omega)
    have h1 : ((stats.specialized + 0 : Int) : ℚ) = (stats.specialized : ℚ) := by
      push_cast; ring
    rw [h1, mul_div_assoc, div_self hnz, mul_one, Int.cast_zero, zero_div,
      max_eq_left (by norm_num : (0 : ℚ) ≤ 1 / 2)]

/-- Witness for C9 at a concrete input: a 100%-specialized chunk in blue mode
renders at the mirrored hue extreme with lightness 1/2 and saturation 1. -/
theorem color_matches_reference_witness :
    (HTMLWriter.mk true false).color (Stats.mk 2 0 0) =
      some (-(1 / 3 : ℚ), 1 / 2, 1) := by
  have h := (color_matches_reference (HTMLWriter.mk true false)
    (Stats.mk 2 0 0)).2.2 (by decide) rfl rfl
  simpa using h

/-- C10 (implicit): the theme flag never enters the color computation — for
every Stats value the color computed by `HTMLWriter._color` is identical under
the dark and the light theme; the theme only selects the page's
background/foreground colors and whether a highlighted run carries its color
via the `color` or the `background-color` CSS attribute. -/
theorem color_theme_noninterference (blue : Bool) (stats : Stats) :
    (HTMLWriter.mk blue true).color stats = (HTMLWriter.mk blue false).color stats ∧
    (∀ dark, (HTMLWriter.mk blue dark).styleAttribute =
      if dark then "color" else "background-color") ∧
    (∀ dark, (HTMLWriter.mk blue dark).pageColors =
      if dark then ("black", "white") else ("white", "black")) :=
  ⟨rfl, fun _ => rfl, fun _ => rfl⟩

theorem enumLine_map_snd (line : List Char) :
    ∀ (lineno col : Nat), (enumLine lineno col line).map Prod.snd = line := by
  induction line with
  | nil => intro _ _; rfl
  | cons ch rest ih =>
    intro lineno col
    rw [enumLine, List.map_cons, ih]

theorem enumerateSource_map_snd (ls : List (List Char)) :
    ∀ (lineno : Nat), (enumerateSource lineno ls).map Prod.snd = ls.flatten := by
  induction ls with
  | nil => intro _; rfl
  | cons line rest ih =>
    intro lineno
    rw [enumerateSource, List.map_append, enumLine_map_snd, ih, List.flatten_cons]

theorem viewWalk_fidelity : ∀ (cs : List (Pos × Char)) (group : List Char)
    (chunk : SourceChunk) (chunks : List SourceChunk)
    (runs : List (List Char × Stats)),
    viewWalk group chunk chunks cs = some runs →
    (runs.map Prod.fst).flatten = group ++ cs.map Prod.snd := by
  intro cs
  induction cs with
  | nil =>
    intro group chunk chunks runs h
    simp only [viewWalk] at h
    have hr : runs = [(group, chunk.stats)] := (Option.some.inj h).symm
    subst hr
    simp
  | cons pc more ih =>
    intro group chunk chunks runs h
    obtain ⟨p, ch⟩ := pc
    by_cases hstop : chunk.stop = p
    · cases chunks with
      | nil =>
        simp only [viewWalk, if_pos hstop] at h
        exact Option.noConfusion h
      | cons next chunks2 =>
        by_cases hstart : next.start = p
        · simp only [viewWalk, if_pos hstop, if_pos hstart] at h
          obtain ⟨runs2, hr2, hruns⟩ := Option.map_eq_some'.mp h
          subst hruns
          rw [List.map_cons, List.flatten_cons, ih [ch] next chunks2 runs2 hr2]
          simp
        · simp only [viewWalk, if_pos hstop, if_neg hstart] at h
          exact Option.noConfusion h
    · simp only [viewWalk, if_neg hstop] at h
      rw [ih (group ++ [ch]) chunk chunks runs h, List.map_cons]
      simp

/-- C5: end-to-end text fidelity of the renderer — for every source (given as
its list of lines) and every chunk partition, whenever the character walk of
`view` succeeds, the concatenation of the unescaped text of all runs it hands
to the writer equals the original source text exactly, character for
character. -/
theorem view_text_fidelity (chunks : List SourceChunk) (lines : List String)
    (runs : List (List Char × Stats))
    (h : viewRuns chunks lines = some runs) :
    (runs.map Prod.fst).flatten = (lines.map String.data).flatten := by
  cases chunks with
  | nil => exact absurd h (by simp [viewRuns])
  | cons chunk rest =>
    rw [viewRuns] at h
    rw [viewWalk_fidelity _ [] chunk rest runs h, enumerateSource_map_snd,
      List.nil_append]

/-- Witness for C5 at the spec's concrete example: source
`"x = 1\ny = x + 1\n"` with the partition produced by `parse` for one
observation covering the first line. -/
theorem view_text_fidelity_witness :
    (([("x = 1\n".data, Stats.mk 1 0 0),
       ("y = x + 1\n".data, Stats.mk 0 0 0)].map Prod.fst)).flatten =
      ((["x = 1\n", "y = x + 1\n"].map String.data)).flatten :=
  view_text_fidelity (parse [Observation.mk (1, 0) (2, 0) (Stats.mk 1 0 0)])
    ["x = 1\n", "y = x + 1\n"]
    [("x = 1\n".data, Stats.mk 1 0 0), ("y = x + 1\n".data, Stats.mk 0 0 0)]
    (by decide)
